import Mathlib

/-! MathML conversion pipeline of `scripts/generation/convert.js`

A shallow embedding of the LaTeX-to-MathML rewriting script.

* A JavaScript string is the list of its UTF-16 code units (`JSString`);
  offsets, `length`, `slice`, `substring` and the regular expressions (which
  carry no `u` flag) all count code units.
* The typesetting engine `mathjax.typeset` is a parameter `oracle`.
* The HTML parser is external: the body markup `htmlContent` is a parameter
  next to the file text `inputHtml`.
* The file system is a tree of files and directories; the walker yields the
  trace of file-system operations it performs.
-/

namespace Convert

/-- A JavaScript string: the list of its UTF-16 code units. -/
abbrev JSString := List Nat

/-- Code units of a string literal (all literals used here are ASCII). -/
def str (s : String) : JSString := s.toList.map Char.toNat

/-- Code unit of the line feed character. -/
def newline : Nat := 10

/-! ## String primitives -/

/-- `s.slice(0, n)` for a non-negative integer `n`. -/
def slice0 (s : JSString) (n : Nat) : JSString := s.take n

/-- `s.split(sep)` for a separator of one code unit: the pieces between the
occurrences of `sep`; the empty string gives one empty piece. -/
def split (sep : Nat) : JSString → List JSString
  | [] => [[]]
  | c :: cs =>
    if c = sep then [] :: split sep cs
    else
      match split sep cs with
      | [] => [[c]]
      | piece :: pieces => (c :: piece) :: pieces

/-- `s.substring(a, b)`: both arguments are clamped to the length and swapped
when `a > b`. -/
def substring (s : JSString) (a b : Nat) : JSString :=
  let a1 := min a s.length
  let b1 := min b s.length
  (s.drop (min a1 b1)).take (max a1 b1 - min a1 b1)

/-- `s.substring(a)`: from `a` (clamped to the length) to the end. -/
def substringFrom (s : JSString) (a : Nat) : JSString :=
  s.drop (min a s.length)

/-! ## `getLineNumber` -/

/-- Lines 19-22: the number of pieces of `inputHtml.slice(0, searchIndex)`
split at line feeds. -/
def getLineNumber (inputHtml : JSString) (searchIndex : Nat) : Nat :=
  let lines := split newline (slice0 inputHtml searchIndex)
  lines.length

/-! ## Regular expressions `/\\\((.*?)\\\)/gs` and `/\\\[(.*?)\\\]/gs` -/

/-- The two literal delimiters of a pattern `open(.*?)close`. -/
structure MathRegex where
  opening : JSString
  closing : JSString

/-- Line 32: `/\\\((.*?)\\\)/gs`. -/
def inlineMathRegex : MathRegex := ⟨str "\\(", str "\\)"⟩

/-- Line 33: `/\\\[(.*?)\\\]/gs`. -/
def displayMathRegex : MathRegex := ⟨str "\\[", str "\\]"⟩

/-- Backtracking of `(.*?)` followed by the literal `closing`, anchored at the
front of `s`. The lazy star first tries to consume nothing and extends by one
code unit (any unit, the `s` flag) only when the rest fails. Returns the number
of code units the star consumed. -/
def lazyStarThen (closing : JSString) : JSString → Option Nat
  | [] => if closing.isPrefixOf [] then some 0 else none
  | c :: cs =>
    if closing.isPrefixOf (c :: cs) then some 0
    else (lazyStarThen closing cs).map (· + 1)

/-- The whole pattern anchored at the front of `s`: the literal `opening`,
then the lazy star and `closing`. Returns the size of capture group 1. -/
def matchHere (re : MathRegex) (s : JSString) : Option Nat :=
  if re.opening.isPrefixOf s then lazyStarThen re.closing (s.drop re.opening.length)
  else none

/-- The result array of `regex.exec`: `match.index`, `match[0]`, `match[1]`. -/
structure RegexMatch where
  index : Nat
  fullMatch : JSString
  tex : JSString
deriving DecidableEq, Repr

/-- The search loop of `exec`: try the pattern at `pos` (where `rest` is the
text from `pos` on), then at `pos + 1`, up to the end of the text. -/
def searchFrom (re : MathRegex) (text : JSString) : Nat → JSString → Option RegexMatch
  | pos, [] =>
    match matchHere re [] with
    | some k =>
      some ⟨pos, (text.drop pos).take (re.opening.length + k + re.closing.length),
        (text.drop (pos + re.opening.length)).take k⟩
    | none => none
  | pos, c :: cs =>
    match matchHere re (c :: cs) with
    | some k =>
      some ⟨pos, (text.drop pos).take (re.opening.length + k + re.closing.length),
        (text.drop (pos + re.opening.length)).take k⟩
    | none => searchFrom re text (pos + 1) cs

/-- `regex.exec(text)` of a global regex whose `lastIndex` is `lastIndex`:
the leftmost match starting at or after `lastIndex`, or `null`. -/
def regexExec (re : MathRegex) (text : JSString) (lastIndex : Nat) : Option RegexMatch :=
  if text.length < lastIndex then none
  else searchFrom re text lastIndex (text.drop lastIndex)

/-! ## Conversions -/

/-- The `format` argument of `mathjax.typeset`. -/
inductive Format
  | inlineTeX
  | TeX
deriving DecidableEq, Repr

/-- The typesetting engine: `data.errors` or `data.mml`. -/
abbrev Oracle := JSString → Format → Except JSString JSString

/-- The arguments of one call `handleConversion(tex, format, originalMatch,
matchStartIndex)`. -/
structure Conversion where
  tex : JSString
  format : Format
  originalMatch : JSString
  matchStartIndex : Nat
deriving DecidableEq, Repr

/-- An entry of `replacements`. -/
structure Replacement where
  start : Nat
  length : Nat
  replacement : JSString
deriving DecidableEq, Repr

/-- What the error branch of `handleConversion` reports before rejecting. -/
structure ErrorReport where
  lineNumber : Nat
  tex : JSString
  errors : JSString
deriving DecidableEq, Repr

/-- Line 55: the MathML wrapped in its root element. -/
def wrapMathML (mml : JSString) : JSString :=
  str "<math xmlns=\"http://www.w3.org/1998/Math/MathML\">" ++ mml ++ str "</math>"

/-- Lines 39-65: the promise of one conversion, settled by the oracle. -/
def handleConversion (oracle : Oracle) (inputHtml : JSString) (c : Conversion) :
    Except ErrorReport Replacement :=
  match oracle c.tex c.format with
  | .error errors =>
    let lineNumber := getLineNumber inputHtml c.matchStartIndex
    .error ⟨lineNumber, c.tex, errors⟩
  | .ok mml =>
    let mathML := wrapMathML mml
    .ok ⟨c.matchStartIndex, c.originalMatch.length, mathML⟩

/-- Lines 68-75: the `while ((match = regex.exec(htmlContent)) !== null)` loop,
with the `lastIndex` of the regex as state; `fuel` bounds the iterations. -/
def processMathMatches (re : MathRegex) (format : Format) (htmlContent : JSString) :
    Nat → Nat → List Conversion
  | 0, _ => []
  | fuel + 1, lastIndex =>
    match regexExec re htmlContent lastIndex with
    | none => []
    | some m =>
      ⟨m.tex, format, m.fullMatch, m.index⟩ ::
        processMathMatches re format htmlContent fuel (m.index + m.fullMatch.length)

/-- Lines 78-79: the array `conversions` after both passes, the inline pass
first. Each loop runs with more fuel than the text has code units. -/
def conversions (htmlContent : JSString) : List Conversion :=
  processMathMatches inlineMathRegex .inlineTeX htmlContent (htmlContent.length + 1) 0 ++
    processMathMatches displayMathRegex .TeX htmlContent (htmlContent.length + 1) 0

/-- `Promise.all`: the list of all results, or a rejection when one promise
rejects (here the first rejected one in list order). -/
def promiseAll {ε α : Type} : List (Except ε α) → Except ε (List α)
  | [] => .ok []
  | .error e :: _ => .error e
  | .ok a :: rest =>
    match promiseAll rest with
    | .error e => .error e
    | .ok results => .ok (a :: results)

/-- Line 82: `await Promise.all(conversions)`. -/
def conversionResults (oracle : Oracle) (inputHtml htmlContent : JSString) :
    Except ErrorReport (List Replacement) :=
  promiseAll ((conversions htmlContent).map (handleConversion oracle inputHtml))

/-- Line 88: `replacements.sort((a, b) => b.start - a.start)`, a stable sort
into descending order of `start`. -/
def sortReplacements (replacements : List Replacement) : List Replacement :=
  replacements.insertionSort (fun a b => b.start ≤ a.start)

/-- Line 92: one splice of the working text. -/
def applyReplacement (htmlContent : JSString) (r : Replacement) : JSString :=
  substring htmlContent 0 r.start ++ r.replacement ++
    substringFrom htmlContent (r.start + r.length)

/-- Lines 91-93: the `forEach` over the sorted replacements. -/
def applyReplacements (htmlContent : JSString) (replacements : List Replacement) : JSString :=
  replacements.foldl applyReplacement htmlContent

/-- Lines 87-93: sort, then splice. -/
def sortAndSplice (htmlContent : JSString) (replacements : List Replacement) : JSString :=
  applyReplacements htmlContent (sortReplacements replacements)

/-- How a call of `convertMathToMathML` ends. -/
structure Outcome where
  /-- The reason of the rejection of the returned promise, if it rejects. -/
  rejected : Option ErrorReport
  /-- The final value of the working text `htmlContent`. -/
  htmlContent : JSString
  /-- The text handed to `fs.writeFileSync`, if it is called. -/
  written : Option JSString
deriving DecidableEq, Repr

/-- Lines 24-101. `inputHtml` is the file as read, `htmlContent` the body
markup the parser extracted from it, `serialize` the serialisation of the
document once its body is set to the given markup. -/
def convertMathToMathML (oracle : Oracle) (serialize : JSString → JSString)
    (inputHtml htmlContent : JSString) : Outcome :=
  match conversionResults oracle inputHtml htmlContent with
  | .error e => ⟨some e, htmlContent, none⟩
  | .ok results =>
    let final := sortAndSplice htmlContent results
    ⟨none, final, some (serialize final)⟩

/-- Reference for the splice (follows the specification): the text from
`cursor` on, with the range of each entry replaced by its replacement, for
entries listed in ascending order of `start`. -/
def replaceRanges (text : JSString) : Nat → List Replacement → JSString
  | cursor, [] => text.drop cursor
  | cursor, r :: rs =>
    (text.take r.start).drop cursor ++ r.replacement ++
      replaceRanges text (r.start + r.length) rs

/-- The entry a successful conversion of `c` contributes, when the engine
answers `mml c.tex c.format`. -/
def replacementOf (mml : JSString → Format → JSString) (c : Conversion) : Replacement :=
  ⟨c.matchStartIndex, c.originalMatch.length, wrapMathML (mml c.tex c.format)⟩

/-- Two ranges do not overlap: one ends at or before the start of the other. -/
def NonOverlapping (a b : Replacement) : Prop :=
  a.start + a.length ≤ b.start ∨ b.start + b.length ≤ a.start

/-- The range of a conversion as a pair of start and end offsets. -/
def Conversion.stop (c : Conversion) : Nat := c.matchStartIndex + c.originalMatch.length

/-! ## The tree walker -/

/-- A path as the list of its components. -/
abbrev Path := List String

/-- What `fs.readdirSync` and `fs.lstatSync` show of a directory entry. -/
inductive DirEntry
  | file (name : String) : DirEntry
  | dir (name : String) (children : List DirEntry) : DirEntry

/-- The file-system operations of the walker. A call of `convertMathToMathML`
reads `inputFile` and, when it succeeds, writes `outputFile`. -/
inductive FsOp
  | existsSync (p : Path)
  | mkdirSync (p : Path)
  | readdirSync (p : Path)
  | lstatSync (p : Path)
  | convert (inputFile outputFile : Path)
deriving DecidableEq, Repr

/-- `path.extname` of a base name: from the last dot to the end, and empty
when there is no dot or the only dot is the first character. -/
def extname (file : String) : String :=
  let cs := file.toList
  match cs.reverse.indexOf? '.' with
  | none => ""
  | some k => if k + 1 = cs.length then "" else String.mk (cs.drop (cs.length - (k + 1)))

mutual
/-- Lines 103-124, with `entries` the content of `sourceDir` and `outExists`
the directories present in the output tree before the walk. -/
def processHtmlFiles (outExists : Path → Bool) (excludedDirs : List String) :
    Path → Path → List DirEntry → List FsOp
  | sourceDir, generatedDir, entries =>
    FsOp.existsSync generatedDir ::
      ((if outExists generatedDir then [] else [FsOp.mkdirSync generatedDir]) ++
        FsOp.readdirSync sourceDir ::
          forEachEntry outExists excludedDirs sourceDir generatedDir entries)
/-- The `forEach` over the listing of `sourceDir`. -/
def forEachEntry (outExists : Path → Bool) (excludedDirs : List String) :
    Path → Path → List DirEntry → List FsOp
  | _, _, [] => []
  | sourceDir, generatedDir, e :: es =>
    processEntry outExists excludedDirs sourceDir generatedDir e ++
      forEachEntry outExists excludedDirs sourceDir generatedDir es
/-- The body of the `forEach` callback. -/
def processEntry (outExists : Path → Bool) (excludedDirs : List String) :
    Path → Path → DirEntry → List FsOp
  | sourceDir, generatedDir, .file file =>
    FsOp.lstatSync (sourceDir ++ [file]) ::
      (if extname file = ".html" then
        [FsOp.convert (sourceDir ++ [file]) (generatedDir ++ [file])]
      else [])
  | sourceDir, generatedDir, .dir file children =>
    FsOp.lstatSync (sourceDir ++ [file]) ::
      (if excludedDirs.contains file then []
      else processHtmlFiles outExists excludedDirs (sourceDir ++ [file]) (generatedDir ++ [file])
        children)
end

/-! ## Predicates used in the statements -/

/-- The shape of a match returned by `exec`. -/
structure MatchOK (re : MathRegex) (text : JSString) (lastIndex : Nat) (m : RegexMatch) :
    Prop where
  ge : lastIndex ≤ m.index
  le : m.index + m.fullMatch.length ≤ text.length
  shape : m.fullMatch = re.opening ++ m.tex ++ re.closing
  slice : (text.drop m.index).take m.fullMatch.length = m.fullMatch
  opens : re.opening <+: text.drop m.index
  minimal : ¬ re.closing <:+: m.tex

/-- The shape of a conversion issued by the pass of `re` with `format`. -/
structure SpanOK (re : MathRegex) (format : Format) (text : JSString) (c : Conversion) :
    Prop where
  format_eq : c.format = format
  le : c.matchStartIndex + c.originalMatch.length ≤ text.length
  shape : c.originalMatch = re.opening ++ c.tex ++ re.closing
  slice : (text.drop c.matchStartIndex).take c.originalMatch.length = c.originalMatch
  opens : re.opening <+: text.drop c.matchStartIndex
  minimal : ¬ re.closing <:+: c.tex

/-- The regular expression that issues conversions of a format. -/
def regexOf : Format → MathRegex
  | .inlineTeX => inlineMathRegex
  | .TeX => displayMathRegex

/-- The range of `c` in `text` reads `opening`, then the source text of `c`,
then `closing`, and the source text holds no `closing`. -/
def Delimited (text : JSString) (c : Conversion) (opening closing : JSString) : Prop :=
  c.originalMatch = opening ++ c.tex ++ closing ∧
    substring text c.matchStartIndex (c.matchStartIndex + c.originalMatch.length) =
      opening ++ c.tex ++ closing ∧
    ¬ closing <:+: c.tex

/-- The stub engine of the examples: the same MathML for every input. -/
def stubOracle : Oracle := fun _ _ => .ok (str "<mi>x</mi><mo>^</mo><mn>2</mn>")

/-- The entries in ascending order of `start`, the order of appearance of
their ranges in the text. -/
def ascending (replacements : List Replacement) : List Replacement :=
  replacements.insertionSort (fun a b => a.start ≤ b.start)

/-- The path `p` is `root` followed by components none of which is an
excluded name. -/
def Clear (excludedDirs : List String) (root p : Path) : Prop :=
  ∃ rel, p = root ++ rel ∧ ∀ d ∈ rel, d ∉ excludedDirs

/-- What the walker may do: list, create and probe only directories reached
from the roots through non-excluded names, and examine or convert only
entries that are direct children of such directories. -/
def OpAllowed (excludedDirs : List String) (sourceDir generatedDir : Path) : FsOp → Prop
  | .existsSync p => Clear excludedDirs generatedDir p
  | .mkdirSync p => Clear excludedDirs generatedDir p
  | .readdirSync p => Clear excludedDirs sourceDir p
  | .lstatSync p => ∃ dir file, p = dir ++ [file] ∧ Clear excludedDirs sourceDir dir
  | .convert inputFile outputFile =>
    ∃ rel file, (∀ d ∈ rel, d ∉ excludedDirs) ∧
      inputFile = sourceDir ++ rel ++ [file] ∧ outputFile = generatedDir ++ rel ++ [file]

/-! ## Lemmas on the string primitives -/

theorem split_ne_nil (sep : Nat) (s : JSString) : split sep s ≠ [] := by
  cases s with
  | nil => simp [split]
  | cons c cs =>
    unfold split
    split_ifs
    · simp
    · split <;> simp

theorem split_length (sep : Nat) (s : JSString) :
    (split sep s).length = 1 + s.count sep := by
  induction s with
  | nil => simp [split]
  | cons c cs ih =>
    unfold split
    by_cases h : c = sep
    · subst h
      simp [ih]
      omega
    · have hne : (c == sep) = false := by simpa using h
      simp only [h, if_false]
      rw [List.count_cons, hne]
      cases hs : split sep cs with
      | nil => exact absurd hs (split_ne_nil sep cs)
      | cons piece pieces =>
        rw [hs] at ih
        simpa using ih

theorem substring_zero (s : JSString) (n : Nat) : substring s 0 n = s.take n := by
  simp only [substring, Nat.zero_min, Nat.zero_le, min_eq_left, List.drop_zero,
    max_eq_right, Nat.sub_zero]
  rcases Nat.le_total n s.length with h | h
  · rw [min_eq_left h]
  · rw [min_eq_right h, List.take_of_length_le h, List.take_of_length_le (le_refl _)]

theorem substringFrom_eq (s : JSString) (n : Nat) : substringFrom s n = s.drop n := by
  unfold substringFrom
  rcases Nat.le_total n s.length with h | h
  · rw [min_eq_left h]
  · rw [min_eq_right h, List.drop_of_length_le h, List.drop_of_length_le (le_refl _)]

theorem substring_range (s : JSString) (a n : Nat) :
    substring s a (a + n) = (s.drop a).take n := by
  simp only [substring]
  rcases Nat.le_total (a + n) s.length with h | h
  · have ha : a ≤ s.length := by omega
    rw [min_eq_left ha, min_eq_left h, min_eq_left (Nat.le_add_right a n),
      max_eq_right (Nat.le_add_right a n)]
    congr 1
    omega
  · rw [min_eq_right h]
    rcases Nat.le_total a s.length with ha | ha
    · rw [min_eq_left ha, min_eq_left ha, max_eq_right ha]
      rw [List.take_of_length_le (by simp), List.take_of_length_le (by simp; omega)]
    · rw [min_eq_right ha]
      simp [List.drop_of_length_le ha]

/-! ## Lemmas on the regular expressions -/

theorem lazyStarThen_spec (closing : JSString) :
    ∀ (s : JSString) (k : Nat), lazyStarThen closing s = some k →
      k ≤ s.length ∧ closing <+: s.drop k ∧ ∀ j, j < k → ¬ closing <+: s.drop j := by
  intro s
  induction s with
  | nil =>
    intro k hk
    unfold lazyStarThen at hk
    split_ifs at hk with h
    have hk0 : k = 0 := by simpa using hk.symm
    subst hk0
    refine ⟨le_refl _, ?_, fun j hj => absurd hj (Nat.not_lt_zero j)⟩
    simpa using h
  | cons c cs ih =>
    intro k hk
    unfold lazyStarThen at hk
    split_ifs at hk with h
    · have hk0 : k = 0 := by simpa using hk.symm
      subst hk0
      refine ⟨Nat.zero_le _, ?_, fun j hj => absurd hj (Nat.not_lt_zero j)⟩
      simpa using h
    · cases hr : lazyStarThen closing cs with
      | none => simp [hr] at hk
      | some k1 =>
        rw [hr] at hk
        have hk1 : k = k1 + 1 := by simpa using hk.symm
        subst hk1
        obtain ⟨hle, hpre, hmin⟩ := ih k1 hr
        refine ⟨by simpa using hle, by simpa using hpre, ?_⟩
        intro j hj
        cases j with
        | zero => simpa using h
        | succ j1 => simpa using hmin j1 (by omega)

theorem no_infix_of_minimal (closing s : JSString) (k : Nat) (hne : closing ≠ [])
    (hmin : ∀ j, j < k → ¬ closing <+: s.drop j) : ¬ closing <:+: s.take k := by
  rintro ⟨a, b, hab⟩
  have hlen : a.length + closing.length + b.length = (s.take k).length := by
    rw [← hab]; simp; omega
  have hcl : 0 < closing.length := List.length_pos.mpr hne
  have hk : (s.take k).length ≤ k := by simp
  apply hmin a.length (by omega)
  have hs : s = a ++ closing ++ b ++ s.drop k := by
    rw [hab]; exact (List.take_append_drop k s).symm
  refine ⟨b ++ s.drop k, ?_⟩
  conv_rhs => rw [hs]
  simp

/-- What a successful match of the pattern at the front of `s` looks like. -/
theorem matchHere_spec (re : MathRegex) (hne : re.closing ≠ []) (s : JSString) (k : Nat)
    (h : matchHere re s = some k) :
    re.opening.length + k + re.closing.length ≤ s.length ∧
      s.take (re.opening.length + k + re.closing.length) =
        re.opening ++ (s.drop re.opening.length).take k ++ re.closing ∧
      ((s.drop re.opening.length).take k).length = k ∧
      ¬ re.closing <:+: (s.drop re.opening.length).take k := by
  unfold matchHere at h
  split_ifs at h with hop
  have hop1 : re.opening <+: s := by simpa using hop
  obtain ⟨hle, hpre, hmin⟩ := lazyStarThen_spec re.closing _ k h
  obtain ⟨t, ht⟩ := hop1
  obtain ⟨u, hu⟩ := hpre
  have hdrop : s.drop re.opening.length = t := by rw [← ht]; simp
  rw [hdrop] at hu hle hmin ⊢
  have htk : (t.take k).length = k := by simp [hle]
  have ht2 : t = t.take k ++ re.closing ++ u := by
    rw [List.append_assoc, hu]; exact (List.take_append_drop k t).symm
  have hs : s = (re.opening ++ t.take k ++ re.closing) ++ u := by
    rw [← ht]; conv_lhs => rw [ht2]
    simp
  have hlen : (re.opening ++ t.take k ++ re.closing).length =
      re.opening.length + k + re.closing.length := by
    simp [hle]; omega
  refine ⟨?_, ?_, htk, no_infix_of_minimal re.closing t k hne hmin⟩
  · have := congrArg List.length hs
    rw [List.length_append, hlen] at this
    omega
  · rw [hs]
    exact List.take_left' hlen

theorem searchFrom_spec (re : MathRegex) (text : JSString) :
    ∀ (rest : JSString) (pos : Nat) (m : RegexMatch),
      searchFrom re text pos rest = some m →
      ∃ j k, j ≤ rest.length ∧ matchHere re (rest.drop j) = some k ∧
        m.index = pos + j ∧
        m.fullMatch = (text.drop (pos + j)).take (re.opening.length + k + re.closing.length) ∧
        m.tex = (text.drop (pos + j + re.opening.length)).take k := by
  intro rest
  induction rest with
  | nil =>
    intro pos m h
    unfold searchFrom at h
    cases hm : matchHere re [] with
    | none => simp [hm] at h
    | some k =>
      rw [hm] at h
      simp only [Option.some.injEq] at h
      subst h
      exact ⟨0, k, le_refl _, by simpa using hm, rfl, rfl, rfl⟩
  | cons c cs ih =>
    intro pos m h
    unfold searchFrom at h
    cases hm : matchHere re (c :: cs) with
    | some k =>
      rw [hm] at h
      simp only [Option.some.injEq] at h
      subst h
      exact ⟨0, k, Nat.zero_le _, by simpa using hm, rfl, rfl, rfl⟩
    | none =>
      rw [hm] at h
      obtain ⟨j, k, hj, hmk, hi, hf, ht⟩ := ih (pos + 1) m h
      refine ⟨j + 1, k, by simpa using hj, by simpa using hmk, by omega, ?_, ?_⟩
      · rw [hf]; congr 2; omega
      · rw [ht]; congr 2; omega

theorem regexExec_spec (re : MathRegex) (hne : re.closing ≠ []) (text : JSString)
    (lastIndex : Nat) (m : RegexMatch) (h : regexExec re text lastIndex = some m) :
    MatchOK re text lastIndex m := by
  unfold regexExec at h
  split_ifs at h with hlt
  obtain ⟨j, k, hj, hmk, hi, hf, ht⟩ := searchFrom_spec re text _ lastIndex m h
  rw [List.drop_drop] at hmk
  have hidx : lastIndex + j = m.index := hi.symm
  rw [hidx] at hmk hf ht
  obtain ⟨hlen, htake, hk, hmin⟩ := matchHere_spec re hne _ k hmk
  have htex : m.tex = ((text.drop m.index).drop re.opening.length).take k := by
    rw [ht, List.drop_drop]
  rw [← htex] at htake hk hmin
  rw [htake] at hf
  have hfl : m.fullMatch.length = re.opening.length + k + re.closing.length := by
    rw [hf]; simp [hk]; omega
  have hdl : (text.drop m.index).length = text.length - m.index := by simp
  refine ⟨by omega, ?_, hf, ?_, ?_, hmin⟩
  · have hle : m.index ≤ text.length := by
      have : j ≤ text.length - lastIndex := by simpa using hj
      omega
    omega
  · rw [hfl, htake, hf]
  · refine ⟨m.tex ++ re.closing ++ (text.drop m.index).drop (re.opening.length + k +
      re.closing.length), ?_⟩
    conv_rhs => rw [← List.take_append_drop (re.opening.length + k + re.closing.length)
      (text.drop m.index)]
    rw [htake]
    simp

/-! ## Lemmas on the matching loop -/

theorem processMathMatches_spec (re : MathRegex) (hne : re.closing ≠ []) (format : Format)
    (text : JSString) :
    ∀ (fuel lastIndex : Nat),
      (∀ c ∈ processMathMatches re format text fuel lastIndex,
        lastIndex ≤ c.matchStartIndex ∧ SpanOK re format text c) ∧
      (processMathMatches re format text fuel lastIndex).Pairwise
        (fun a b => a.matchStartIndex + a.originalMatch.length ≤ b.matchStartIndex) := by
  intro fuel
  induction fuel with
  | zero => intro lastIndex; simp [processMathMatches]
  | succ fuel ih =>
    intro lastIndex
    unfold processMathMatches
    cases hm : regexExec re text lastIndex with
    | none => simp
    | some m =>
      have hok := regexExec_spec re hne text lastIndex m hm
      obtain ⟨hall, hpw⟩ := ih (m.index + m.fullMatch.length)
      constructor
      · intro c hc
        simp only [List.mem_cons] at hc
        rcases hc with rfl | hc
        · exact ⟨hok.ge, ⟨rfl, hok.le, hok.shape, hok.slice, hok.opens, hok.minimal⟩⟩
        · obtain ⟨hge, hs⟩ := hall c hc
          exact ⟨by have := hok.ge; omega, hs⟩
      · simp only [List.pairwise_cons]
        exact ⟨fun b hb => (hall b hb).1, hpw⟩

/-- The loop ends because `exec` returns `null`, not because the fuel runs out:
any two amounts of fuel that exceed the rest of the text give the same list. -/
theorem processMathMatches_fuel (re : MathRegex) (hne : re.closing ≠ []) (format : Format)
    (text : JSString) :
    ∀ (fuel fuel1 lastIndex : Nat), text.length < lastIndex + fuel →
      text.length < lastIndex + fuel1 →
      processMathMatches re format text fuel lastIndex =
        processMathMatches re format text fuel1 lastIndex := by
  have hnone : ∀ lastIndex, text.length < lastIndex → regexExec re text lastIndex = none := by
    intro lastIndex h
    simp [regexExec, h]
  have hstop : ∀ f lastIndex, text.length < lastIndex →
      processMathMatches re format text f lastIndex = [] := by
    intro f lastIndex h
    cases f with
    | zero => rfl
    | succ f => simp [processMathMatches, hnone lastIndex h]
  intro fuel
  induction fuel with
  | zero =>
    intro fuel1 lastIndex h _
    rw [hstop 0 lastIndex (by omega), hstop fuel1 lastIndex (by omega)]
  | succ fuel ih =>
    intro fuel1 lastIndex h h1
    cases fuel1 with
    | zero => rw [hstop _ lastIndex (by omega), hstop 0 lastIndex (by omega)]
    | succ fuel1 =>
      unfold processMathMatches
      cases hm : regexExec re text lastIndex with
      | none => rfl
      | some m =>
        have hok := regexExec_spec re hne text lastIndex m hm
        have hpos : 0 < m.fullMatch.length := by
          rw [hok.shape]
          have := List.length_pos.mpr hne
          simp
          omega
        have hge := hok.ge
        simp only [List.cons.injEq, true_and]
        exact ih fuel1 _ (by omega) (by omega)

theorem inline_closing_ne : inlineMathRegex.closing ≠ [] := by decide

theorem display_closing_ne : displayMathRegex.closing ≠ [] := by decide

/-- The array `conversions` does not depend on the fuel of the two loops. -/
theorem conversions_fuel (text : JSString) (fuel : Nat) (h : text.length < fuel) :
    processMathMatches inlineMathRegex .inlineTeX text fuel 0 ++
      processMathMatches displayMathRegex .TeX text fuel 0 = conversions text := by
  unfold conversions
  rw [processMathMatches_fuel inlineMathRegex inline_closing_ne .inlineTeX text fuel
      (text.length + 1) 0 (by omega) (by omega),
    processMathMatches_fuel displayMathRegex display_closing_ne .TeX text fuel
      (text.length + 1) 0 (by omega) (by omega)]

theorem conversions_spanOK (text : JSString) (c : Conversion) (h : c ∈ conversions text) :
    SpanOK (regexOf c.format) c.format text c := by
  unfold conversions at h
  rcases List.mem_append.mp h with h | h
  · have hs := ((processMathMatches_spec inlineMathRegex inline_closing_ne .inlineTeX text
      _ 0).1 c h).2
    rw [hs.format_eq]; exact hs
  · have hs := ((processMathMatches_spec displayMathRegex display_closing_ne .TeX text
      _ 0).1 c h).2
    rw [hs.format_eq]; exact hs

theorem originalMatch_length_pos (text : JSString) (c : Conversion)
    (h : c ∈ conversions text) : 4 ≤ c.originalMatch.length := by
  have hs := conversions_spanOK text c h
  rw [hs.shape]
  cases hf : c.format <;> simp [regexOf, inlineMathRegex, displayMathRegex, str]

theorem spanOK_length_pos {re : MathRegex} {format : Format} {text : JSString}
    {c : Conversion} (hne : re.closing ≠ []) (hs : SpanOK re format text c) :
    0 < c.originalMatch.length := by
  rw [hs.shape]
  have := List.length_pos.mpr hne
  simp
  omega

theorem pass_sorted (re : MathRegex) (hne : re.closing ≠ []) (format : Format)
    (text : JSString) (fuel lastIndex : Nat) :
    List.Sorted (· < ·)
      ((processMathMatches re format text fuel lastIndex).map (·.matchStartIndex)) := by
  obtain ⟨hall, hpw⟩ := processMathMatches_spec re hne format text fuel lastIndex
  unfold List.Sorted
  rw [List.pairwise_map]
  refine hpw.imp_of_mem ?_
  intro a b ha _ hab
  have := spanOK_length_pos hne (hall a ha).2
  omega

/-! ## Lemmas on the conversion results -/

theorem promiseAll_map_ok {ε α β : Type} (f : β → Except ε α) (g : β → α) (l : List β)
    (h : ∀ b ∈ l, f b = .ok (g b)) : promiseAll (l.map f) = .ok (l.map g) := by
  induction l with
  | nil => rfl
  | cons b bs ih =>
    have hb := h b (List.mem_cons_self b bs)
    have hbs := ih (fun x hx => h x (List.mem_cons_of_mem b hx))
    simp only [List.map_cons, hb, promiseAll, hbs]

theorem promiseAll_ok {ε α β : Type} (f : β → Except ε α) (l : List β) (rs : List α)
    (h : promiseAll (l.map f) = .ok rs) : List.Forall₂ (fun b r => f b = .ok r) l rs := by
  induction l generalizing rs with
  | nil =>
    simp only [List.map_nil, promiseAll, Except.ok.injEq] at h
    subst h
    exact List.Forall₂.nil
  | cons b bs ih =>
    rw [List.map_cons] at h
    cases hb : f b with
    | error e => rw [hb] at h; simp [promiseAll] at h
    | ok a =>
      rw [hb] at h
      unfold promiseAll at h
      cases hr : promiseAll (bs.map f) with
      | error e => rw [hr] at h; simp at h
      | ok as =>
        rw [hr] at h
        simp only [Except.ok.injEq] at h
        subst h
        exact List.Forall₂.cons hb (ih as hr)

theorem promiseAll_error {ε α β : Type} (f : β → Except ε α) (l : List β) (e : ε)
    (h : promiseAll (l.map f) = .error e) : ∃ b ∈ l, f b = .error e := by
  induction l with
  | nil => simp [promiseAll] at h
  | cons b bs ih =>
    rw [List.map_cons] at h
    cases hb : f b with
    | error e1 =>
      rw [hb] at h
      simp only [promiseAll, Except.error.injEq] at h
      subst h
      exact ⟨b, List.mem_cons_self b bs, hb⟩
    | ok a =>
      rw [hb] at h
      unfold promiseAll at h
      cases hr : promiseAll (bs.map f) with
      | error e1 =>
        rw [hr] at h
        simp only [Except.error.injEq] at h
        subst h
        obtain ⟨x, hx, hfx⟩ := ih hr
        exact ⟨x, List.mem_cons_of_mem b hx, hfx⟩
      | ok as => rw [hr] at h; simp at h

theorem handleConversion_ok (oracle : Oracle) (inputHtml : JSString) (c : Conversion)
    (r : Replacement) (h : handleConversion oracle inputHtml c = .ok r) :
    ∃ mml, oracle c.tex c.format = .ok mml ∧
      r = ⟨c.matchStartIndex, c.originalMatch.length, wrapMathML mml⟩ := by
  unfold handleConversion at h
  cases ho : oracle c.tex c.format with
  | error e => rw [ho] at h; simp at h
  | ok mml =>
    rw [ho] at h
    simp only [Except.ok.injEq] at h
    exact ⟨mml, rfl, h.symm⟩

theorem handleConversion_error (oracle : Oracle) (inputHtml : JSString) (c : Conversion)
    (e : ErrorReport) (h : handleConversion oracle inputHtml c = .error e) :
    ∃ errors, oracle c.tex c.format = .error errors ∧
      e = ⟨getLineNumber inputHtml c.matchStartIndex, c.tex, errors⟩ := by
  unfold handleConversion at h
  cases ho : oracle c.tex c.format with
  | ok mml => rw [ho] at h; simp at h
  | error errors =>
    rw [ho] at h
    simp only [Except.error.injEq] at h
    exact ⟨errors, rfl, h.symm⟩

theorem forall2_starts (oracle : Oracle) (inputHtml : JSString) (cs : List Conversion)
    (rs : List Replacement)
    (hf : List.Forall₂ (fun c r => handleConversion oracle inputHtml c = .ok r) cs rs) :
    rs.map (·.start) = cs.map (·.matchStartIndex) := by
  induction hf with
  | nil => rfl
  | cons hab _ ih =>
    obtain ⟨mml, _, hr⟩ := handleConversion_ok _ _ _ _ hab
    subst hr
    simp only [List.map_cons, ih]

theorem results_starts (oracle : Oracle) (inputHtml text : JSString)
    (results : List Replacement) (h : conversionResults oracle inputHtml text = .ok results) :
    results.map (·.start) = (conversions text).map (·.matchStartIndex) :=
  forall2_starts oracle inputHtml _ _ (promiseAll_ok _ _ _ h)

theorem openings_differ : ¬ (inlineMathRegex.opening = displayMathRegex.opening) := by
  decide

theorem openings_length :
    inlineMathRegex.opening.length = displayMathRegex.opening.length := by
  decide

theorem starts_nodup (text : JSString) :
    ((conversions text).map (·.matchStartIndex)).Nodup := by
  unfold conversions
  rw [List.map_append, List.nodup_append]
  refine ⟨(pass_sorted _ inline_closing_ne _ _ _ _).nodup,
    (pass_sorted _ display_closing_ne _ _ _ _).nodup, ?_⟩
  intro p hp1 hp2
  rw [List.mem_map] at hp1 hp2
  obtain ⟨a, ha, rfl⟩ := hp1
  obtain ⟨b, hb, hab⟩ := hp2
  have h1 := ((processMathMatches_spec _ inline_closing_ne _ _ _ _).1 a ha).2.opens
  have h2 := ((processMathMatches_spec _ display_closing_ne _ _ _ _).1 b hb).2.opens
  rw [hab] at h2
  have h3 := List.prefix_of_prefix_length_le h1 h2 (le_of_eq openings_length)
  exact openings_differ (h3.eq_of_length openings_length)

theorem sortReplacements_perm (rs : List Replacement) : (sortReplacements rs).Perm rs :=
  List.perm_insertionSort _ rs

theorem sortReplacements_sorted (rs : List Replacement) :
    (sortReplacements rs).Sorted (fun a b => b.start ≤ a.start) := by
  haveI : IsTotal Replacement (fun a b => b.start ≤ a.start) :=
    ⟨fun a b => Nat.le_total b.start a.start⟩
  haveI : IsTrans Replacement (fun a b => b.start ≤ a.start) :=
    ⟨fun a b c hab hbc => Nat.le_trans hbc hab⟩
  exact List.sorted_insertionSort _ rs

theorem sortReplacements_strict (rs : List Replacement) (h : (rs.map (·.start)).Nodup) :
    (sortReplacements rs).Sorted (fun a b => b.start < a.start) := by
  have hs := sortReplacements_sorted rs
  have hn : ((sortReplacements rs).map (·.start)).Nodup :=
    ((sortReplacements_perm rs).map _).nodup_iff.mpr h
  unfold List.Nodup at hn
  rw [List.pairwise_map] at hn
  unfold List.Sorted at hs ⊢
  exact (hs.and hn).imp (fun ⟨h1, h2⟩ => lt_of_le_of_ne h1 (Ne.symm h2))

/-! ## Lemmas on the splice -/

theorem applyReplacement_eq (w : JSString) (r : Replacement) :
    applyReplacement w r = w.take r.start ++ r.replacement ++ w.drop (r.start + r.length) := by
  simp [applyReplacement, substring_zero, substringFrom_eq]

theorem splice_ascending (text : JSString) :
    ∀ (l : List Replacement) (cursor : Nat),
      l.Pairwise (fun a b => a.start + a.length ≤ b.start) →
      (∀ r ∈ l, cursor ≤ r.start ∧ r.start + r.length ≤ text.length) →
      l.foldr (fun r acc => applyReplacement acc r) text =
        text.take cursor ++ replaceRanges text cursor l := by
  intro l
  induction l with
  | nil =>
    intro cursor _ _
    simp [replaceRanges]
  | cons r rs ih =>
    intro cursor hpw hin
    rw [List.pairwise_cons] at hpw
    obtain ⟨hc, hle⟩ := hin r (List.mem_cons_self r rs)
    have hrest := ih (r.start + r.length) hpw.2 (fun x hx =>
      ⟨hpw.1 x hx, (hin x (List.mem_cons_of_mem r hx)).2⟩)
    have hlen : (text.take (r.start + r.length)).length = r.start + r.length := by
      simp [hle]
    rw [List.foldr_cons, hrest, applyReplacement_eq, replaceRanges]
    rw [List.take_append_of_le_length (by omega), List.take_take,
      min_eq_left (Nat.le_add_right _ _), List.drop_left' hlen]
    have hsplit : text.take r.start =
        text.take cursor ++ (text.take r.start).drop cursor := by
      conv_lhs => rw [← List.take_append_drop cursor (text.take r.start)]
      rw [List.take_take, min_eq_left hc]
    conv_lhs => rw [hsplit]
    simp

theorem ascending_perm (rs : List Replacement) : (ascending rs).Perm rs :=
  List.perm_insertionSort _ rs

theorem ascending_strict (rs : List Replacement) (h : (rs.map (·.start)).Nodup) :
    (ascending rs).Sorted (fun a b => a.start < b.start) := by
  haveI : IsTotal Replacement (fun a b => a.start ≤ b.start) :=
    ⟨fun a b => Nat.le_total a.start b.start⟩
  haveI : IsTrans Replacement (fun a b => a.start ≤ b.start) :=
    ⟨fun a b c hab hbc => Nat.le_trans hab hbc⟩
  have hs : (ascending rs).Sorted (fun a b => a.start ≤ b.start) :=
    List.sorted_insertionSort _ rs
  have hn : ((ascending rs).map (·.start)).Nodup :=
    ((ascending_perm rs).map _).nodup_iff.mpr h
  unfold List.Nodup at hn
  rw [List.pairwise_map] at hn
  unfold List.Sorted at hs ⊢
  exact (hs.and hn).imp (fun ⟨h1, h2⟩ => lt_of_le_of_ne h1 h2)

theorem reverse_sorted_eq_ascending (rs : List Replacement) (h : (rs.map (·.start)).Nodup) :
    (sortReplacements rs).reverse = ascending rs := by
  haveI : IsAntisymm Replacement (fun a b => a.start < b.start) :=
    ⟨fun a b h1 h2 => absurd h1 (Nat.lt_asymm h2)⟩
  have h1 : ((sortReplacements rs).reverse).Sorted (fun a b => a.start < b.start) := by
    have := sortReplacements_strict rs h
    unfold List.Sorted at this ⊢
    rw [List.pairwise_reverse]
    exact this
  have hp : ((sortReplacements rs).reverse).Perm (ascending rs) :=
    ((List.reverse_perm _).trans (sortReplacements_perm rs)).trans (ascending_perm rs).symm
  exact List.eq_of_perm_of_sorted hp h1 (ascending_strict rs h)

/-- Sorting and splicing entries with distinct starts, in-range and pairwise
non-overlapping, gives the text with each range replaced. -/
theorem sortAndSplice_eq_replaceRanges (text : JSString) (rs : List Replacement)
    (hnodup : (rs.map (·.start)).Nodup)
    (hin : ∀ r ∈ rs, r.start + r.length ≤ text.length)
    (hdisj : rs.Pairwise NonOverlapping) :
    sortAndSplice text rs = replaceRanges text 0 (ascending rs) := by
  have hfold : sortAndSplice text rs =
      (sortReplacements rs).reverse.foldr (fun r acc => applyReplacement acc r) text := by
    rw [List.foldr_reverse]
    rfl
  rw [hfold, reverse_sorted_eq_ascending rs hnodup]
  have hsym : ∀ {a b : Replacement}, NonOverlapping a b → NonOverlapping b a := fun h => Or.symm h
  have hd : (ascending rs).Pairwise NonOverlapping :=
    ((ascending_perm rs).pairwise_iff hsym).mpr hdisj
  have hchain : (ascending rs).Pairwise (fun a b => a.start + a.length ≤ b.start) := by
    have hs := ascending_strict rs hnodup
    unfold List.Sorted at hs
    refine (hs.and hd).imp ?_
    rintro a b ⟨hlt, h | h⟩
    · exact h
    · omega
  have := splice_ascending text (ascending rs) 0 hchain (fun r hr =>
    ⟨Nat.zero_le _, hin r ((ascending_perm rs).mem_iff.mp hr)⟩)
  simpa using this

theorem conversionResults_ok (oracle : Oracle) (inputHtml text : JSString)
    (mml : JSString → Format → JSString)
    (hok : ∀ c ∈ conversions text, oracle c.tex c.format = .ok (mml c.tex c.format)) :
    conversionResults oracle inputHtml text =
      .ok ((conversions text).map (replacementOf mml)) := by
  apply promiseAll_map_ok
  intro c hc
  simp [handleConversion, hok c hc, replacementOf]

theorem forall2_left {α β : Type} {R : α → β → Prop} {l1 : List α} {l2 : List β}
    (h : List.Forall₂ R l1 l2) : ∀ a ∈ l1, ∃ b, R a b := by
  induction h with
  | nil => intro a ha; simp at ha
  | cons hab _ ih =>
    intro a ha
    rcases List.mem_cons.mp ha with rfl | ha
    · exact ⟨_, hab⟩
    · exact ih a ha

/-- Entries with distinct starts have one sorted plan, so sorting and splicing
any permutation of them gives the same text. -/
theorem sortAndSplice_perm_of_nodup (text : JSString) (l1 l2 : List Replacement)
    (hperm : l2.Perm l1) (hn1 : (l1.map (·.start)).Nodup) :
    sortAndSplice text l2 = sortAndSplice text l1 := by
  have hn2 : (l2.map (·.start)).Nodup := ((hperm.map _).nodup_iff).mpr hn1
  haveI : IsAntisymm Replacement (fun a b => b.start < a.start) :=
    ⟨fun a b h1 h2 => absurd h1 (Nat.lt_asymm h2)⟩
  have hp : (sortReplacements l2).Perm (sortReplacements l1) :=
    ((sortReplacements_perm l2).trans hperm).trans (sortReplacements_perm l1).symm
  unfold sortAndSplice
  rw [List.eq_of_perm_of_sorted hp (sortReplacements_strict l2 hn2)
    (sortReplacements_strict l1 hn1)]

theorem forall2_in_range (oracle : Oracle) (inputHtml text : JSString)
    (cs : List Conversion) (rs : List Replacement)
    (hcs : ∀ c ∈ cs, c.matchStartIndex + c.originalMatch.length ≤ text.length)
    (hf : List.Forall₂ (fun c r => handleConversion oracle inputHtml c = .ok r) cs rs) :
    ∀ r ∈ rs, r.start + r.length ≤ text.length := by
  induction hf with
  | nil => intro r hr; simp at hr
  | cons hab _ ih =>
    intro r hr
    rcases List.mem_cons.mp hr with rfl | hr
    · obtain ⟨mml, _, hr1⟩ := handleConversion_ok _ _ _ _ hab
      subst hr1
      exact hcs _ (List.mem_cons_self _ _)
    · exact ih (fun c hc => hcs c (List.mem_cons_of_mem _ hc)) r hr

/-- The ranges of the conversion results lie inside the body text. -/
theorem results_in_range (oracle : Oracle) (inputHtml text : JSString)
    (results : List Replacement) (h : conversionResults oracle inputHtml text = .ok results) :
    ∀ r ∈ results, r.start + r.length ≤ text.length :=
  forall2_in_range oracle inputHtml text _ _
    (fun c hc => (conversions_spanOK text c hc).le) (promiseAll_ok _ _ _ h)

/-! ## The tree walker -/

mutual
theorem processHtmlFiles_allowed (outExists : Path → Bool) (excludedDirs : List String)
    (sourceDir generatedDir : Path) :
    ∀ (entries : List DirEntry) (rel : Path), (∀ d ∈ rel, d ∉ excludedDirs) →
      ∀ op ∈ processHtmlFiles outExists excludedDirs (sourceDir ++ rel) (generatedDir ++ rel)
        entries, OpAllowed excludedDirs sourceDir generatedDir op
  | entries, rel, hrel, op, hop => by
    unfold processHtmlFiles at hop
    simp only [List.mem_cons, List.mem_append] at hop
    rcases hop with rfl | hop | rfl | hop
    · exact ⟨rel, rfl, hrel⟩
    · split_ifs at hop
      · simp at hop
      · simp only [List.mem_singleton] at hop
        subst hop
        exact ⟨rel, rfl, hrel⟩
    · exact ⟨rel, rfl, hrel⟩
    · exact forEachEntry_allowed outExists excludedDirs sourceDir generatedDir entries rel
        hrel op hop
theorem forEachEntry_allowed (outExists : Path → Bool) (excludedDirs : List String)
    (sourceDir generatedDir : Path) :
    ∀ (entries : List DirEntry) (rel : Path), (∀ d ∈ rel, d ∉ excludedDirs) →
      ∀ op ∈ forEachEntry outExists excludedDirs (sourceDir ++ rel) (generatedDir ++ rel)
        entries, OpAllowed excludedDirs sourceDir generatedDir op
  | [], _, _, op, hop => by
    unfold forEachEntry at hop
    simp at hop
  | e :: es, rel, hrel, op, hop => by
    unfold forEachEntry at hop
    rcases List.mem_append.mp hop with hop | hop
    · exact processEntry_allowed outExists excludedDirs sourceDir generatedDir e rel hrel op hop
    · exact forEachEntry_allowed outExists excludedDirs sourceDir generatedDir es rel hrel op hop
theorem processEntry_allowed (outExists : Path → Bool) (excludedDirs : List String)
    (sourceDir generatedDir : Path) :
    ∀ (e : DirEntry) (rel : Path), (∀ d ∈ rel, d ∉ excludedDirs) →
      ∀ op ∈ processEntry outExists excludedDirs (sourceDir ++ rel) (generatedDir ++ rel) e,
        OpAllowed excludedDirs sourceDir generatedDir op
  | .file file, rel, hrel, op, hop => by
    unfold processEntry at hop
    rcases List.mem_cons.mp hop with rfl | hop
    · exact ⟨sourceDir ++ rel, file, rfl, rel, rfl, hrel⟩
    · split_ifs at hop
      · simp only [List.mem_singleton] at hop
        subst hop
        exact ⟨rel, file, hrel, rfl, rfl⟩
      · simp at hop
  | .dir file children, rel, hrel, op, hop => by
    unfold processEntry at hop
    rcases List.mem_cons.mp hop with rfl | hop
    · exact ⟨sourceDir ++ rel, file, rfl, rel, rfl, hrel⟩
    · split_ifs at hop with hex
      · simp at hop
      · have hfile : file ∉ excludedDirs := by simpa using hex
        have hrel1 : ∀ d ∈ rel ++ [file], d ∉ excludedDirs := by
          intro d hd
          rcases List.mem_append.mp hd with hd | hd
          · exact hrel d hd
          · rw [List.mem_singleton] at hd
            rw [hd]; exact hfile
        rw [List.append_assoc, List.append_assoc] at hop
        exact processHtmlFiles_allowed outExists excludedDirs sourceDir generatedDir children
          (rel ++ [file]) hrel1 op hop
end

theorem walk_trace_example :
    processHtmlFiles (fun _ => false) ["searching"] ["html"] ["generated"]
        [.dir "searching" [.file "b.html"], .dir "x" [.file "c.html", .file "d.txt"]] =
      [.existsSync ["generated"], .mkdirSync ["generated"], .readdirSync ["html"],
        .lstatSync ["html", "searching"], .lstatSync ["html", "x"],
        .existsSync ["generated", "x"], .mkdirSync ["generated", "x"],
        .readdirSync ["html", "x"], .lstatSync ["html", "x", "c.html"],
        .convert ["html", "x", "c.html"] ["generated", "x", "c.html"],
        .lstatSync ["html", "x", "d.txt"]] := by
  have h1 : extname "c.html" = ".html" := by decide
  have h2 : ¬ extname "d.txt" = ".html" := by decide
  simp [processHtmlFiles, forEachEntry, processEntry, h1, h2]

/-! ## The claims -/

/-- C1: when the located spans are pairwise non-overlapping and the engine
succeeds on all of them, the conversion ends with the body text in which the
range of each span is replaced by the wrapped MathML of its own source text
and format, everything outside the spans unchanged, and this text is written. -/
theorem splice_replaces_each_span (oracle : Oracle) (serialize : JSString → JSString)
    (inputHtml text : JSString) (mml : JSString → Format → JSString)
    (hdisj : (conversions text).Pairwise
      (fun a b => a.stop ≤ b.matchStartIndex ∨ b.stop ≤ a.matchStartIndex))
    (hok : ∀ c ∈ conversions text, oracle c.tex c.format = .ok (mml c.tex c.format)) :
    convertMathToMathML oracle serialize inputHtml text =
      ⟨none, replaceRanges text 0 (ascending ((conversions text).map (replacementOf mml))),
        some (serialize
          (replaceRanges text 0 (ascending ((conversions text).map (replacementOf mml)))))⟩ := by
  unfold convertMathToMathML
  rw [conversionResults_ok oracle inputHtml text mml hok]
  have hsplice : sortAndSplice text ((conversions text).map (replacementOf mml)) =
      replaceRanges text 0 (ascending ((conversions text).map (replacementOf mml))) := by
    apply sortAndSplice_eq_replaceRanges
    · rw [List.map_map]
      exact starts_nodup text
    · intro r hr
      rw [List.mem_map] at hr
      obtain ⟨c, hc, rfl⟩ := hr
      exact (conversions_spanOK text c hc).le
    · rw [List.pairwise_map]
      exact hdisj
  simp only [hsplice]

theorem splice_replaces_each_span_witness :
    (conversions (str "The value \\(x^2\\) is \\[x^2\\]")).Pairwise
        (fun a b => a.stop ≤ b.matchStartIndex ∨ b.stop ≤ a.matchStartIndex) ∧
      (convertMathToMathML stubOracle id [] (str "The value \\(x^2\\) is \\[x^2\\]")).htmlContent =
        str ("The value <math xmlns=\"http://www.w3.org/1998/Math/MathML\">" ++
          "<mi>x</mi><mo>^</mo><mn>2</mn></math> is " ++
          "<math xmlns=\"http://www.w3.org/1998/Math/MathML\">" ++
          "<mi>x</mi><mo>^</mo><mn>2</mn></math>") := by
  refine ⟨by decide, ?_⟩
  rw [splice_replaces_each_span stubOracle id [] (str "The value \\(x^2\\) is \\[x^2\\]")
    (fun _ _ => str "<mi>x</mi><mo>^</mo><mn>2</mn>") (by decide) (fun _ _ => rfl)]
  rfl

/-- C2, counterexample: in the text `\(a\[b\)c\]` the inline span covers the
offsets 0 to 8 and the display span the offsets 3 to 11. -/
theorem pooled_spans_overlap :
    (conversions (str "\\(a\\[b\\)c\\]")).map (fun c => (c.matchStartIndex, c.stop)) =
        [(0, 8), (3, 11)] ∧
      ¬ (conversions (str "\\(a\\[b\\)c\\]")).Pairwise
        (fun a b => a.stop ≤ b.matchStartIndex ∨ b.stop ≤ a.matchStartIndex) := by
  decide

/-- C2, amended: any two located spans of the same syntax kind do not overlap:
one ends at or before the start of the other. -/
theorem same_kind_spans_disjoint (text : JSString) :
    (conversions text).Pairwise (fun a b => a.format = b.format →
      a.stop ≤ b.matchStartIndex ∨ b.stop ≤ a.matchStartIndex) := by
  unfold conversions
  rw [List.pairwise_append]
  obtain ⟨hall1, hpw1⟩ := processMathMatches_spec inlineMathRegex inline_closing_ne
    .inlineTeX text (text.length + 1) 0
  obtain ⟨hall2, hpw2⟩ := processMathMatches_spec displayMathRegex display_closing_ne
    .TeX text (text.length + 1) 0
  refine ⟨hpw1.imp (fun h _ => Or.inl h), hpw2.imp (fun h _ => Or.inl h), ?_⟩
  intro a ha b hb hab
  have h1 := (hall1 a ha).2.format_eq
  have h2 := (hall2 b hb).2.format_eq
  rw [h1, h2] at hab
  exact absurd hab (by decide)

/-- C3, failing input: the body starts on line 3 of the file and the failing
span stands at offset 4 of the body, on line 4 of the file; the report names
line 1, the line of offset 4 of the file. -/
theorem reported_line_uses_body_offset :
    str "<html>\n<head></head>\n<body>\n<p>\\(\\frac\\)</p></body></html>" =
        str "<html>\n<head></head>\n<body>" ++ str "\n<p>\\(\\frac\\)</p>" ++
          str "</body></html>" ∧
      conversionResults (fun _ _ => .error (str "TeX parse error"))
          (str "<html>\n<head></head>\n<body>\n<p>\\(\\frac\\)</p></body></html>")
          (str "\n<p>\\(\\frac\\)</p>") =
        .error ⟨1, str "\\frac", str "TeX parse error"⟩ ∧
      (conversions (str "\n<p>\\(\\frac\\)</p>")).map (·.matchStartIndex) = [4] ∧
      1 + ((str "<html>\n<head></head>\n<body>\n<p>\\(\\frac\\)</p></body></html>").take
        ((str "<html>\n<head></head>\n<body>").length + 4)).count newline = 4 := by
  refine ⟨by decide, by rfl, by decide, by decide⟩

/-- C4: the conversion ends without rejection and writes the output exactly
when the engine succeeds on every located span; when the engine fails on a
span the promise rejects, the working text is left as it was and nothing is
written. -/
theorem convert_all_or_nothing (oracle : Oracle) (serialize : JSString → JSString)
    (inputHtml htmlContent : JSString) :
    (((convertMathToMathML oracle serialize inputHtml htmlContent).rejected = none ∧
        (convertMathToMathML oracle serialize inputHtml htmlContent).written.isSome) ↔
      ∀ c ∈ conversions htmlContent, ∃ mml, oracle c.tex c.format = .ok mml) ∧
    ((∃ c ∈ conversions htmlContent, ∃ errors, oracle c.tex c.format = .error errors) →
      (convertMathToMathML oracle serialize inputHtml htmlContent).rejected.isSome ∧
      (convertMathToMathML oracle serialize inputHtml htmlContent).written = none ∧
      (convertMathToMathML oracle serialize inputHtml htmlContent).htmlContent =
        htmlContent) := by
  unfold convertMathToMathML
  cases hr : conversionResults oracle inputHtml htmlContent with
  | error e =>
    obtain ⟨c, hc, hce⟩ := promiseAll_error _ _ _ hr
    obtain ⟨errors, herr, _⟩ := handleConversion_error _ _ _ _ hce
    refine ⟨⟨fun h => by simp at h, fun h => ?_⟩, fun _ => by simp⟩
    obtain ⟨mml, hmml⟩ := h c hc
    rw [hmml] at herr
    simp at herr
  | ok results =>
    have hall : ∀ c ∈ conversions htmlContent, ∃ mml, oracle c.tex c.format = .ok mml := by
      intro c hc
      obtain ⟨r, hcr⟩ := forall2_left (promiseAll_ok _ _ _ hr) c hc
      obtain ⟨mml, hmml, _⟩ := handleConversion_ok _ _ _ _ hcr
      exact ⟨mml, hmml⟩
    refine ⟨⟨fun _ => hall, fun _ => by simp⟩, ?_⟩
    rintro ⟨c, hc, errors, herr⟩
    obtain ⟨mml, hmml⟩ := hall c hc
    rw [hmml] at herr
    simp at herr

/-- C5: every located span covers, in the body text, its opening delimiter,
its source text and the matching closing delimiter, and the source text holds
no occurrence of that closing delimiter. -/
theorem located_span_is_delimited (text : JSString) (c : Conversion)
    (h : c ∈ conversions text) :
    (c.format = .inlineTeX ∧ Delimited text c (str "\\(") (str "\\)")) ∨
      (c.format = .TeX ∧ Delimited text c (str "\\[") (str "\\]")) := by
  have hs := conversions_spanOK text c h
  have hd : Delimited text c (regexOf c.format).opening (regexOf c.format).closing := by
    refine ⟨hs.shape, ?_, hs.minimal⟩
    rw [substring_range, hs.slice, hs.shape]
  cases hf : c.format with
  | inlineTeX => rw [hf] at hd; exact Or.inl ⟨rfl, hd⟩
  | TeX => rw [hf] at hd; exact Or.inr ⟨rfl, hd⟩

theorem located_span_is_delimited_witness :
    (⟨str "a\nb", .inlineTeX, str "\\(a\nb\\)", 2⟩ : Conversion) ∈
        conversions (str "x \\(a\nb\\) y\\)") ∧
      Delimited (str "x \\(a\nb\\) y\\)")
        ⟨str "a\nb", .inlineTeX, str "\\(a\nb\\)", 2⟩ (str "\\(") (str "\\)") := by
  have h := located_span_is_delimited (str "x \\(a\nb\\) y\\)")
    ⟨str "a\nb", .inlineTeX, str "\\(a\nb\\)", 2⟩ (by decide)
  refine ⟨by decide, ?_⟩
  rcases h with ⟨_, hd⟩ | ⟨hf, _⟩
  · exact hd
  · exact absurd hf (by decide)

/-- C6, counterexample: in the text `\[a\] \(b\)` the inline span at offset 6
is issued before the display span at offset 0. -/
theorem conversions_not_left_to_right :
    (conversions (str "\\[a\\] \\(b\\)")).map (·.matchStartIndex) = [6, 0] ∧
      ¬ List.Sorted (· < ·)
        ((conversions (str "\\[a\\] \\(b\\)")).map (·.matchStartIndex)) := by
  decide

/-- C6, amended: the issued conversions are all inline spans followed by all
display spans, and within each kind the start offsets strictly increase. -/
theorem conversions_order (text : JSString) :
    ∃ inl dsp, conversions text = inl ++ dsp ∧
      (∀ c ∈ inl, c.format = .inlineTeX) ∧ (∀ c ∈ dsp, c.format = .TeX) ∧
      List.Sorted (· < ·) (inl.map (·.matchStartIndex)) ∧
      List.Sorted (· < ·) (dsp.map (·.matchStartIndex)) := by
  refine ⟨_, _, rfl, ?_, ?_, pass_sorted _ inline_closing_ne _ _ _ _,
    pass_sorted _ display_closing_ne _ _ _ _⟩
  · intro c hc
    exact ((processMathMatches_spec _ inline_closing_ne _ _ _ _).1 c hc).2.format_eq
  · intro c hc
    exact ((processMathMatches_spec _ display_closing_ne _ _ _ _).1 c hc).2.format_eq

/-- C7: when all conversions succeed, the sorted plan is a permutation of the
results in strictly descending order of start offset, and no two located
spans, of the same or of different kinds, start at the same offset. -/
theorem plan_strictly_descending (oracle : Oracle) (inputHtml text : JSString)
    (results : List Replacement)
    (h : conversionResults oracle inputHtml text = .ok results) :
    (sortReplacements results).Perm results ∧
      (sortReplacements results).Sorted (fun a b => b.start < a.start) ∧
      ((conversions text).map (·.matchStartIndex)).Nodup := by
  refine ⟨sortReplacements_perm results, ?_, starts_nodup text⟩
  apply sortReplacements_strict
  rw [results_starts oracle inputHtml text results h]
  exact starts_nodup text

theorem plan_strictly_descending_witness :
    conversionResults stubOracle [] (str "The value \\(x^2\\) is \\[x^2\\]") =
        .ok [⟨10, 7, wrapMathML (str "<mi>x</mi><mo>^</mo><mn>2</mn>")⟩,
          ⟨21, 7, wrapMathML (str "<mi>x</mi><mo>^</mo><mn>2</mn>")⟩] ∧
      (sortReplacements [⟨10, 7, wrapMathML (str "<mi>x</mi><mo>^</mo><mn>2</mn>")⟩,
          ⟨21, 7, wrapMathML (str "<mi>x</mi><mo>^</mo><mn>2</mn>")⟩]).Sorted
        (fun a b => b.start < a.start) :=
  ⟨by rfl, (plan_strictly_descending stubOracle [] (str "The value \\(x^2\\) is \\[x^2\\]")
    _ (by rfl)).2.1⟩

/-- C8: for every entry list the conversion builds from a text, the ranges
lie inside the text and the output of sorting and splicing does not depend on
the order in which the entries were collected: every permutation of the list
yields the same output text, in particular when the ranges are pairwise
non-overlapping. -/
theorem sortAndSplice_order_independent (oracle : Oracle) (inputHtml text : JSString)
    (results collected : List Replacement)
    (hres : conversionResults oracle inputHtml text = .ok results)
    (hperm : collected.Perm results) :
    (∀ r ∈ results, r.start + r.length ≤ text.length) ∧
      sortAndSplice text collected = sortAndSplice text results := by
  have hn : (results.map (·.start)).Nodup := by
    rw [results_starts oracle inputHtml text results hres]
    exact starts_nodup text
  exact ⟨results_in_range oracle inputHtml text results hres,
    sortAndSplice_perm_of_nodup text results collected hperm hn⟩

theorem sortAndSplice_order_independent_witness :
    conversionResults stubOracle [] (str "\\[a\\] and \\(b\\)") =
        .ok [⟨10, 5, wrapMathML (str "<mi>x</mi><mo>^</mo><mn>2</mn>")⟩,
          ⟨0, 5, wrapMathML (str "<mi>x</mi><mo>^</mo><mn>2</mn>")⟩] ∧
      sortAndSplice (str "\\[a\\] and \\(b\\)")
          [⟨0, 5, wrapMathML (str "<mi>x</mi><mo>^</mo><mn>2</mn>")⟩,
            ⟨10, 5, wrapMathML (str "<mi>x</mi><mo>^</mo><mn>2</mn>")⟩] =
        sortAndSplice (str "\\[a\\] and \\(b\\)")
          [⟨10, 5, wrapMathML (str "<mi>x</mi><mo>^</mo><mn>2</mn>")⟩,
            ⟨0, 5, wrapMathML (str "<mi>x</mi><mo>^</mo><mn>2</mn>")⟩] :=
  ⟨by rfl, (sortAndSplice_order_independent stubOracle [] (str "\\[a\\] and \\(b\\)")
    _ _ (by rfl) (List.Perm.swap _ _ _)).2⟩

/-- C9: every operation of the walk lists, probes or creates a directory
reached from its root through names outside the exclusion set only, and
examines or converts only direct children of such directories: nothing inside
an excluded source directory is listed or read, and nothing is created or
written at or below its mirror in the output tree. -/
theorem walk_avoids_excluded (outExists : Path → Bool) (excludedDirs : List String)
    (sourceDir generatedDir : Path) (entries : List DirEntry) (op : FsOp)
    (h : op ∈ processHtmlFiles outExists excludedDirs sourceDir generatedDir entries) :
    OpAllowed excludedDirs sourceDir generatedDir op := by
  have := processHtmlFiles_allowed outExists excludedDirs sourceDir generatedDir entries []
    (fun d hd => absurd hd (List.not_mem_nil d)) op
  simp only [List.append_nil] at this
  exact this h

theorem walk_avoids_excluded_witness :
    FsOp.convert ["html", "x", "c.html"] ["generated", "x", "c.html"] ∈
        processHtmlFiles (fun _ => false) ["searching"] ["html"] ["generated"]
          [.dir "searching" [.file "b.html"], .dir "x" [.file "c.html", .file "d.txt"]] ∧
      OpAllowed ["searching"] ["html"] ["generated"]
        (FsOp.convert ["html", "x", "c.html"] ["generated", "x", "c.html"]) := by
  have hmem : FsOp.convert ["html", "x", "c.html"] ["generated", "x", "c.html"] ∈
      processHtmlFiles (fun _ => false) ["searching"] ["html"] ["generated"]
        [.dir "searching" [.file "b.html"], .dir "x" [.file "c.html", .file "d.txt"]] := by
    rw [walk_trace_example]
    decide
  exact ⟨hmem, walk_avoids_excluded (fun _ => false) ["searching"] ["html"] ["generated"]
    [.dir "searching" [.file "b.html"], .dir "x" [.file "c.html", .file "d.txt"]] _ hmem⟩


/-- C10: for every text and offset, `getLineNumber` is one plus the number of
line feeds among the first `i` code units; it is at least one and it is
non-decreasing in the offset. -/
theorem getLineNumber_eq_count (text : JSString) (i : Nat) :
    getLineNumber text i = 1 + (text.take i).count newline ∧
      1 ≤ getLineNumber text i ∧ Monotone (getLineNumber text) := by
  have h : ∀ j, getLineNumber text j = 1 + (text.take j).count newline := by
    intro j
    simp [getLineNumber, slice0, split_length]
  refine ⟨h i, by rw [h i]; omega, ?_⟩
  intro a b hab
  rw [h a, h b]
  have : (text.take a).Sublist (text.take b) :=
    List.take_sublist_take_left text hab
  have := this.count_le newline
  omega

end Convert
